import Mathlib

set_option maxRecDepth 100000
set_option maxHeartbeats 1000000

/-!
Verification of the xorcoin node core against its specification.

The Python sources are shallowly embedded: pure functions become Lean
functions, Python `int` becomes `Int` (or `Nat` where the source only
produces naturals), Python `dict` becomes an insertion-ordered association
list with replace-on-insert, bytes become `List Nat`, and `hashlib.sha256`
is implemented bit-faithfully below so that hash-dependent statements can
be settled on concrete inputs.  Python `float` arithmetic on exactly
representable values is modelled by `Rat`.
-/

namespace Xorcoin

/-! ## SHA-256 (models Python `hashlib.sha256` on byte lists) -/

/-- The SHA-256 word modulus, 2^32. -/
def M32 : Nat := 4294967296

/-- Rotate the word x right by n bit positions, staying below 2^32. -/
def rotr (n x : Nat) : Nat := ((x >>> n) ||| ((x <<< (32 - n)) &&& (M32 - 1)))

/-- The 64 round constants of SHA-256, written in decimal. -/
def K256 : List Nat :=
  [1116352408, 1899447441, 3049323471, 3921009573, 961987163,
   1508970993, 2453635748, 2870763221, 3624381080, 310598401,
   607225278, 1426881987, 1925078388, 2162078206, 2614888103,
   3248222580, 3835390401, 4022224774, 264347078, 604807628,
   770255983, 1249150122, 1555081692, 1996064986, 2554220882,
   2821834349, 2952996808, 3210313671, 3336571891, 3584528711,
   113926993, 338241895, 666307205, 773529912, 1294757372,
   1396182291, 1695183700, 1986661051, 2177026350, 2456956037,
   2730485921, 2820302411, 3259730800, 3345764771, 3516065817,
   3600352804, 4094571909, 275423344, 430227734, 506948616,
   659060556, 883997877, 958139571, 1322822218, 1537002063,
   1747873779, 1955562222, 2024104815, 2227730452, 2361852424,
   2428436474, 2756734187, 3204031479, 3329325298]

/-- The initial SHA-256 state words, written in decimal. -/
def H256 : List Nat :=
  [1779033703, 3144134277, 1013904242, 2773480762,
   1359893119, 2600822924, 528734635, 1541459225]

/-- Bitwise choice function. -/
def ch32 (e f g : Nat) : Nat := (e &&& f) ^^^ ((e ^^^ (M32 - 1)) &&& g)

/-- Bitwise majority function. -/
def maj32 (a b c : Nat) : Nat := (a &&& b) ^^^ (a &&& c) ^^^ (b &&& c)

/-- The first of the two compression-round mixing functions. -/
def sigmaBig0 (a : Nat) : Nat := rotr 2 a ^^^ rotr 13 a ^^^ rotr 22 a

/-- The second of the two compression-round mixing functions. -/
def sigmaBig1 (e : Nat) : Nat := rotr 6 e ^^^ rotr 11 e ^^^ rotr 25 e

/-- The first schedule-expansion mixing function. -/
def sigmaSml0 (w : Nat) : Nat := rotr 7 w ^^^ rotr 18 w ^^^ (w >>> 3)

/-- The second schedule-expansion mixing function. -/
def sigmaSml1 (w : Nat) : Nat := rotr 17 w ^^^ rotr 19 w ^^^ (w >>> 10)

/-- Group a byte list into big-endian 32-bit words. -/
def toWords : List Nat → List Nat
  | b0 :: b1 :: b2 :: b3 :: rest =>
      (b0 * 16777216 + b1 * 65536 + b2 * 256 + b3) :: toWords rest
  | _ => []

/-- Extend the 16-word block to the 64-word message schedule. -/
def extendW : Nat → List Nat → List Nat
  | 0, ws => ws
  | k + 1, ws =>
      let n := ws.length
      let w := (sigmaSml1 (ws.getD (n - 2) 0) + ws.getD (n - 7) 0 +
                sigmaSml0 (ws.getD (n - 15) 0) + ws.getD (n - 16) 0) % M32
      extendW k (ws ++ [w])

/-- One round of the SHA-256 compression function on the 8-word state. -/
def roundStep (st : List Nat) (kw : Nat × Nat) : List Nat :=
  match st with
  | [a, b, c, d, e, f, g, h] =>
      let t1 := (h + sigmaBig1 e + ch32 e f g + kw.1 + kw.2) % M32
      let t2 := (sigmaBig0 a + maj32 a b c) % M32
      [(t1 + t2) % M32, a, b, c, (d + t1) % M32, e, f, g]
  | other => other

/-- Compress one 64-byte block into the running hash state. -/
def compress (h8 : List Nat) (block : List Nat) : List Nat :=
  let ws := extendW 48 (toWords block)
  let st := (K256.zip ws).foldl roundStep h8
  (h8.zip st).map (fun p => (p.1 + p.2) % M32)

/-- Big-endian 8-byte encoding of the bit length. -/
def lenBytes (n : Nat) : List Nat :=
  [n / 72057594037927936 % 256, n / 281474976710656 % 256, n / 1099511627776 % 256,
   n / 4294967296 % 256, n / 16777216 % 256, n / 65536 % 256, n / 256 % 256, n % 256]

/-- SHA-256 padding: append 0x80, zeros, then the 64-bit big-endian bit length. -/
def padBytes (ms : List Nat) : List Nat :=
  let L := ms.length
  let k := (64 - ((L + 9) % 64)) % 64
  ms ++ [128] ++ List.replicate k 0 ++ lenBytes (8 * L)

/-- Split a byte list into 64-byte chunks (fuel-structured for kernel reduction). -/
def chunk64 : Nat → List Nat → List (List Nat)
  | 0, _ => []
  | _ + 1, [] => []
  | fuel + 1, l => l.take 64 :: chunk64 fuel (l.drop 64)

/-- Serialize the 8-word state to the 32-byte digest. -/
def stateBytes (h8 : List Nat) : List Nat :=
  h8.foldr (fun w acc =>
    [w / 16777216 % 256, w / 65536 % 256, w / 256 % 256, w % 256] ++ acc) []

/-- SHA-256 of a byte list, as the 32-byte digest (hashlib `.digest()`). -/
def sha256bytes (ms : List Nat) : List Nat :=
  let p := padBytes ms
  stateBytes ((chunk64 p.length p).foldl compress H256)

/-- Lower-case hex digit for a value below 16. -/
def hexChar (n : Nat) : Char := if n < 10 then Char.ofNat (48 + n) else Char.ofNat (87 + n)

/-- Two hex digits of one byte. -/
def hexByte (b : Nat) : List Char := [hexChar (b / 16), hexChar (b % 16)]

/-- Lower-case hex string of a byte list (hashlib `.hexdigest()`). -/
def hexOfBytes (bs : List Nat) : String :=
  String.mk (bs.foldr (fun b acc => hexByte b ++ acc) [])

/-- Byte list of a string; models Python `str.encode()` for ASCII content,
which covers every string the node serializes (JSON of hex digests,
addresses and integers). -/
def strBytes (s : String) : List Nat := s.toList.map Char.toNat

/-- Value of one hex digit character. -/
def hexVal (c : Char) : Nat := if c.toNat ≥ 97 then c.toNat - 87 else c.toNat - 48

/-- Parse a hex string to a natural number; models Python `int(h, 16)` for
lower-case hex input, the only form the node produces. -/
def hexToNat (s : String) : Nat := s.toList.foldl (fun acc c => 16 * acc + hexVal c) 0

end Xorcoin

namespace Xorcoin

/-! ## JSON rendering (models Python `json.dumps(..., sort_keys=True)`)

The node serializes only dictionaries of ints and ASCII strings; keys are
written below already in sorted order, matching `sort_keys=True`.  String
escaping covers the quote and backslash; every string the node feeds in
(hex digests, addresses, integers) contains neither. -/

/-- Escape backslash and quote, character by character (the two escapes
`json.dumps` applies to the strings the node serializes). -/
def jsonEscape (s : String) : String :=
  String.mk (s.toList.foldr (fun c acc =>
    if c.toNat = 92 then c :: c :: acc
    else if c.toNat = 34 then Char.ofNat 92 :: c :: acc
    else c :: acc) [])

/-- JSON string literal. -/
def jstr (s : String) : String := "\"" ++ jsonEscape s ++ "\""

/-- JSON integer literal. -/
def jint (n : Int) : String := toString n

/-- JSON array with Python `json.dumps` default separators. -/
def jarr (l : List String) : String := "[" ++ String.intercalate ", " l ++ "]"

/-- JSON object with Python `json.dumps` default separators; callers list
the keys in sorted order, matching `sort_keys=True`. -/
def jobj (pairs : List (String × String)) : String :=
  "\x7b" ++ String.intercalate ", " (pairs.map (fun p => jstr p.1 ++ ": " ++ p.2)) ++ "\x7d"

/-! ## Data model (src/xorcoin/core/models.py) -/

/-- Unspent transaction output. -/
structure UTXO where
  tx_hash : String
  output_index : Int
  amount : Int
  script_pubkey : String
deriving DecidableEq

/-- UTXO.get_id: the `"tx_hash:output_index"` dictionary key. -/
def UTXO.get_id (u : UTXO) : String := u.tx_hash ++ ":" ++ toString u.output_index

/-- Transaction input referencing a UTXO; `signature` and `pubkey` are byte
strings. -/
structure TxInput where
  prev_tx_hash : String
  prev_output_index : Int
  signature : List Nat := []
  pubkey : List Nat := []
deriving DecidableEq

/-- TxInput.get_utxo_id: the id of the referenced UTXO. -/
def TxInput.get_utxo_id (i : TxInput) : String :=
  i.prev_tx_hash ++ ":" ++ toString i.prev_output_index

/-- Transaction output. -/
structure TxOutput where
  amount : Int
  script_pubkey : String
deriving DecidableEq

/-- Transaction record. -/
structure Transaction where
  version : Int := 2
  chain_id : Int := 1
  inputs : List TxInput := []
  outputs : List TxOutput := []
  locktime : Int := 0
  timestamp : Int := 0
deriving DecidableEq

/-- The canonical JSON string Transaction.get_hash hashes: keys sorted,
inputs reduced to their outpoints, no signatures, no pubkeys, and no
timestamp (the source's `data` dict has no `timestamp` entry). -/
def Transaction.txidData (tx : Transaction) : String :=
  jobj [("chain_id", jint tx.chain_id),
        ("inputs", jarr (tx.inputs.map (fun inp =>
            jobj [("prev_output_index", jint inp.prev_output_index),
                  ("prev_tx_hash", jstr inp.prev_tx_hash)]))),
        ("locktime", jint tx.locktime),
        ("outputs", jarr (tx.outputs.map (fun o =>
            jobj [("amount", jint o.amount),
                  ("script_pubkey", jstr o.script_pubkey)]))),
        ("version", jint tx.version)]

/-- Transaction.get_hash: double SHA-256 hexdigest of the canonical
serialization. -/
def Transaction.get_hash (tx : Transaction) : String :=
  hexOfBytes (sha256bytes (sha256bytes (strBytes tx.txidData)))

/-- Block record. -/
structure Block where
  version : Int := 1
  height : Int := 0
  timestamp : Int := 0
  prev_block_hash : String := String.mk (List.replicate 64 '0')
  merkle_root : String := ""
  difficulty : Int := 4
  nonce : Int := 0
  transactions : List Transaction := []
deriving DecidableEq

/-- The JSON header string Block.get_header_hash hashes (keys sorted;
transactions are not part of the header). -/
def Block.headerData (b : Block) : String :=
  jobj [("difficulty", jint b.difficulty),
        ("height", jint b.height),
        ("merkle_root", jstr b.merkle_root),
        ("nonce", jint b.nonce),
        ("prev_block_hash", jstr b.prev_block_hash),
        ("timestamp", jint b.timestamp),
        ("version", jint b.version)]

/-- Block.get_header_hash: double SHA-256 hexdigest of the header JSON. -/
def Block.get_header_hash (b : Block) : String :=
  hexOfBytes (sha256bytes (sha256bytes (strBytes b.headerData)))

/-- One merkle level: hash adjacent pairs with a single SHA-256 over the
concatenated hex strings. -/
def merkleLevel : List String → List String
  | a :: b :: rest => hexOfBytes (sha256bytes (strBytes (a ++ b))) :: merkleLevel rest
  | _ => []

/-- The `while len(tx_hashes) > 1` loop of calculate_merkle_root; when a
level has odd length the last hash is duplicated.  Fuel equals the initial
list length, which bounds the number of halvings. -/
def merkleLoop : Nat → List String → List String
  | 0, hs => hs
  | fuel + 1, hs =>
      if hs.length > 1 then
        merkleLoop fuel (merkleLevel (if hs.length % 2 ≠ 0 then hs ++ [hs.getLastD ""] else hs))
      else hs

/-- Block.calculate_merkle_root: the all-zero string on an empty
transaction list, else the root of the txid tree. -/
def Block.calculate_merkle_root (b : Block) : String :=
  if b.transactions = [] then String.mk (List.replicate 64 '0')
  else
    let tx_hashes := b.transactions.map Transaction.get_hash
    (merkleLoop tx_hashes.length tx_hashes).headD ""

end Xorcoin

namespace Xorcoin

/-! ## Proof of work (src/xorcoin/core/pow.py) -/

namespace ProofOfWork

/-- ProofOfWork.calculate_target: clamps difficulty below 1 up to 1, then
returns `2 ** (256 - difficulty)`. -/
def calculate_target (difficulty : Int) : Nat :=
  let d : Nat := if difficulty < 1 then 1 else difficulty.toNat
  2 ^ (256 - d)

/-- ProofOfWork.hash_to_int: `int(hash_hex, 16)`. -/
def hash_to_int (hash_hex : String) : Nat := hexToNat hash_hex

/-- ProofOfWork.verify_pow: numeric comparison of the header hash against
the target. -/
def verify_pow (b : Block) : Bool :=
  decide (hash_to_int b.get_header_hash < calculate_target b.difficulty)

end ProofOfWork

/-! ## Block validation, PoW clause (src/xorcoin/validation/block.py) -/

namespace BlockValidator

/-- BlockValidator._validate_pow: the header hash must start with
`difficulty` zero hex characters (`"0" * difficulty` is empty for
non-positive difficulty, as in Python). -/
def validate_pow (b : Block) : Bool :=
  List.isPrefixOf (List.replicate b.difficulty.toNat '0') b.get_header_hash.toList

end BlockValidator

/-! ## Consensus rules (src/xorcoin/consensus/rules.py) -/

namespace ConsensusRules

/-- ConsensusRules.DIFFICULTY_ADJUSTMENT_INTERVAL. -/
def DIFFICULTY_ADJUSTMENT_INTERVAL : Nat := 2016

/-- ConsensusRules.TARGET_BLOCK_TIME in seconds. -/
def TARGET_BLOCK_TIME : Int := 600

/-- ConsensusRules.calculate_next_difficulty.  `chain[-1]` and
`chain[-2016]` are modelled by `getLastD`/`getD`; on the empty chain the
source raises IndexError, so the value returned here for the empty chain
is irrelevant to any statement (all claims concern chains of length at
least 2016).  The two float comparisons `time_taken < expected_time / 2`
and `time_taken > expected_time * 2` are exact on these integer values and
are taken in `Rat`. -/
def calculate_next_difficulty (chain : List Block) : Int :=
  if chain.length < DIFFICULTY_ADJUSTMENT_INTERVAL then
    (chain.getLastD {}).difficulty
  else
    let period_start := chain.getD (chain.length - DIFFICULTY_ADJUSTMENT_INTERVAL) {}
    let period_end := chain.getLastD {}
    let time_taken : Int := period_end.timestamp - period_start.timestamp
    let expected_time : Int := (DIFFICULTY_ADJUSTMENT_INTERVAL : Int) * TARGET_BLOCK_TIME
    let nd := period_end.difficulty
    if (time_taken : Rat) < (expected_time : Rat) / 2 then nd + 1
    else if (time_taken : Rat) > (expected_time : Rat) * 2 then max 1 (nd - 1)
    else nd

end ConsensusRules

/-- The difficulty-retarget formula as the spec states it, for comparison
with the code: `r = clamp(actual/expected, 0.25, 4.0)`; if `r < 1` then
`d + max(1, floor((1-r)*2))` else `max(1, d - floor((r-1)*2))`.  This is
also a faithful transcription of
DifficultyAdjustment.calculate_next_difficulty (src/xorcoin/economics/
economics.py lines 183-211) — except that that method never reaches those
lines: its first statement reads the attribute
`DifficultyAdjustment.DIFFICULTY_ADJUSTMENT_INTERVAL`, which the class
does not define, so every call raises AttributeError. -/
def specFormulaNextDifficulty (d : Int) (actual expected : Int) : Int :=
  let r : Rat := max (1 / 4) (min 4 ((actual : Rat) / (expected : Rat)))
  if r < 1 then d + max 1 (Int.floor ((1 - r) * 2))
  else max 1 (d - Int.floor ((r - 1) * 2))

/-- DifficultyAdjustment.calculate_next_difficulty (src/xorcoin/economics/
economics.py).  Its first statement evaluates
`DifficultyAdjustment.DIFFICULTY_ADJUSTMENT_INTERVAL`; the class defines
no such attribute (the constant lives on XorcoinEconomics), so the call
raises AttributeError before computing anything. -/
def DifficultyAdjustment.calculate_next_difficulty
    (_blocks : List Block) (_current_difficulty : Int) : Except String Int :=
  Except.error "AttributeError: type object has no attribute DIFFICULTY_ADJUSTMENT_INTERVAL"

end Xorcoin

namespace Xorcoin

/-! ## Python dict as an insertion-ordered association list -/

/-- Dict assignment `d[k] = v`: replace in place if the key is present,
else append. -/
def dinsert (l : List (String × UTXO)) (k : String) (v : UTXO) : List (String × UTXO) :=
  if l.any (fun p => p.1 == k) then l.map (fun p => if p.1 == k then (k, v) else p)
  else l ++ [(k, v)]

/-- Dict removal `d.pop(k, None)`: drop the key if present. -/
def dpop (l : List (String × UTXO)) (k : String) : List (String × UTXO) :=
  l.filter (fun p => !(p.1 == k))

/-! ## Thread-safe UTXO set (src/xorcoin/core/utxo_threadsafe.py)

Locking is invisible to a sequential shallow embedding; `batch_update` is
the write operation the claims concern. -/

namespace ThreadSafeUTXOSet

/-- ThreadSafeUTXOSet.batch_update: `pop(utxo_id, None)` every removal (a
missing key is silently skipped), then insert every addition keyed by
`get_id`.  No check, no exception, no rollback appears in the source. -/
def batch_update (utxos : List (String × UTXO)) (to_add : List UTXO)
    (to_remove : List String) : List (String × UTXO) :=
  let afterRemove := to_remove.foldl dpop utxos
  to_add.foldl (fun s u => dinsert s u.get_id u) afterRemove

end ThreadSafeUTXOSet

/-! ## Transaction validation (src/xorcoin/validation/transaction.py)

`_verify_input_signature` (lines 91-121) loads a PEM public key, derives
the address and runs ECDSA; per the spec that cryptography is an opaque
oracle, so it enters the embedding as the parameter `sigOk tx idx
expected_address`.  Everything else in validate_transaction is embedded
from the source. -/

namespace TransactionValidator

/-- TransactionValidator._is_double_spend_in_mempool: scan every pending
transaction's inputs for the outpoint. -/
def is_double_spend_in_mempool (mempool : List Transaction) (utxo_id : String) : Bool :=
  mempool.any (fun pending => pending.inputs.any (fun inp => inp.get_utxo_id == utxo_id))

/-- The `for idx, tx_input in enumerate(tx.inputs)` loop of
validate_transaction: checks UTXO existence, in-transaction double spend,
the signature oracle and the mempool conflict in source order, and
accumulates the referenced input amount; `none` is any `return False`. -/
def inputsLoop (utxo_set : List (String × UTXO)) (mempool : List Transaction)
    (sigOk : Transaction → Nat → String → Bool) (tx : Transaction) :
    List (Nat × TxInput) → List String → Int → Option Int
  | [], _, total => some total
  | (idx, inp) :: rest, used, total =>
      match List.lookup inp.get_utxo_id utxo_set with
      | none => none
      | some utxo =>
          if used.contains inp.get_utxo_id then none
          else if ¬ sigOk tx idx utxo.script_pubkey then none
          else if is_double_spend_in_mempool mempool inp.get_utxo_id then none
          else inputsLoop utxo_set mempool sigOk tx rest
                 (inp.get_utxo_id :: used) (total + utxo.amount)

/-- Sum of the output amounts of a transaction. -/
def totalOutputAmount (tx : Transaction) : Int :=
  (tx.outputs.map TxOutput.amount).sum

/-- TransactionValidator.validate_transaction.  `now` models
`int(time.time())`; the locktime test mirrors Python truthiness
(`if tx.locktime and tx.locktime > now`). -/
def validate_transaction (utxo_set : List (String × UTXO)) (mempool : List Transaction)
    (sigOk : Transaction → Nat → String → Bool) (now : Int) (tx : Transaction) : Bool :=
  if tx.inputs = [] ∨ tx.outputs = [] then false
  else if tx.chain_id ≠ 1 then false
  else if tx.locktime ≠ 0 ∧ tx.locktime > now then false
  else
    match inputsLoop utxo_set mempool sigOk tx
        (List.zip (List.range tx.inputs.length) tx.inputs) [] 0 with
    | none => false
    | some total_input => decide (total_input ≥ totalOutputAmount tx)

/-- The total amount of the UTXOs a transaction's inputs reference (0 for a
missing outpoint); the reference value validate_transaction's accumulator
reaches when all input checks pass. -/
def referencedAmount (utxo_set : List (String × UTXO)) (tx : Transaction) : Int :=
  (tx.inputs.map (fun inp =>
    match List.lookup inp.get_utxo_id utxo_set with
    | some u => u.amount
    | none => 0)).sum

end TransactionValidator

/-! ## Double-spend guard (src/xorcoin/security/double_spend.py) -/

/-- Guard state: `spent_utxos` is a Python set, `pending_utxos` a dict from
outpoint id to the reserving transaction. -/
structure DoubleSpendProtector where
  spent_utxos : List String := []
  pending_utxos : List (String × Transaction) := []

namespace DoubleSpendProtector

/-- Set insertion `s.add(x)`. -/
def sadd (s : List String) (x : String) : List String :=
  if s.contains x then s else s ++ [x]

/-- Dict insertion for the pending map. -/
def pinsert (l : List (String × Transaction)) (k : String) (tx : Transaction) :
    List (String × Transaction) :=
  if l.any (fun p => p.1 == k) then l.map (fun p => if p.1 == k then (k, tx) else p)
  else l ++ [(k, tx)]

/-- Dict removal `d.pop(k, None)` for the pending map. -/
def ppop (l : List (String × Transaction)) (k : String) : List (String × Transaction) :=
  l.filter (fun p => !(p.1 == k))

/-- DoubleSpendProtector.check_and_lock_utxos: fail if any input outpoint
is in either set, else lock all of them into `pending_utxos`. -/
def check_and_lock_utxos (p : DoubleSpendProtector) (tx : Transaction) :
    DoubleSpendProtector × Bool :=
  if tx.inputs.any (fun inp =>
      p.spent_utxos.contains inp.get_utxo_id ||
      p.pending_utxos.any (fun q => q.1 == inp.get_utxo_id)) then
    (p, false)
  else
    ({ p with pending_utxos :=
        tx.inputs.foldl (fun d inp => pinsert d inp.get_utxo_id tx) p.pending_utxos }, true)

/-- DoubleSpendProtector.commit_transaction: per input, pop from pending
then add to spent. -/
def commit_transaction (p : DoubleSpendProtector) (tx : Transaction) : DoubleSpendProtector :=
  tx.inputs.foldl (fun st inp =>
    { spent_utxos := sadd st.spent_utxos inp.get_utxo_id,
      pending_utxos := ppop st.pending_utxos inp.get_utxo_id }) p

/-- DoubleSpendProtector.rollback_transaction: pop every input from
pending. -/
def rollback_transaction (p : DoubleSpendProtector) (tx : Transaction) : DoubleSpendProtector :=
  tx.inputs.foldl (fun st inp =>
    { st with pending_utxos := ppop st.pending_utxos inp.get_utxo_id }) p

/-- One guard operation. -/
inductive Op where
  | lock (tx : Transaction)
  | commit (tx : Transaction)
  | rollback (tx : Transaction)

/-- Apply one operation to the guard state. -/
def step (p : DoubleSpendProtector) : Op → DoubleSpendProtector
  | Op.lock tx => (check_and_lock_utxos p tx).1
  | Op.commit tx => commit_transaction p tx
  | Op.rollback tx => rollback_transaction p tx

/-- Run a sequence of guard operations from the empty state. -/
def run (ops : List Op) : DoubleSpendProtector :=
  ops.foldl step {}

/-- Boolean disjointness of the pending keys and the spent set. -/
def disjointSets (p : DoubleSpendProtector) : Bool :=
  p.pending_utxos.all (fun q => ¬ p.spent_utxos.contains q.1)

end DoubleSpendProtector

/-! ## GETBLOCKS handling (src/xorcoin/network/p2p/node.py) -/

namespace P2PNode

/-- The locator scan of _handle_getblocks from a given running
`start_height`: for each locator hash, find its first occurrence in the
chain; every hit overwrites `start_height` with `index + 1`. -/
def getblocksStartFrom (chain : List Block) (locator : List String) (acc : Nat) : Nat :=
  locator.foldl (fun start h =>
    match chain.findIdx? (fun b => b.get_header_hash == h) with
    | some i => i + 1
    | none => start) acc

/-- The locator scan of _handle_getblocks, starting from
`start_height = 0`; the last recognized locator entry wins. -/
def getblocksStart (chain : List Block) (locator : List String) : Nat :=
  getblocksStartFrom chain locator 0

/-- The inventory loop: emit header hashes in order, stopping after
`stop_hash` is appended. -/
def invTake : List Block → String → List String
  | [], _ => []
  | b :: rest, stop_hash =>
      let h := b.get_header_hash
      h :: (if h == stop_hash then [] else invTake rest stop_hash)

/-- The handler _handle_getblocks: the block-hash inventory sent back —
`range(start_height, min(start_height + 500, len(chain)))` with the
stop-hash break. -/
def getblocksInv (chain : List Block) (locator : List String) (stop_hash : String) :
    List String :=
  let start := getblocksStart chain locator
  invTake ((chain.drop start).take 500) stop_hash

/-- One past the first chain occurrence of the last recognized locator
entry (0 when nothing is recognized), computed directly from the list of
recognized positions; the reference value for the reply start. -/
def lastRecognizedStart (chain : List Block) (locator : List String) : Nat :=
  ((locator.filterMap (fun h =>
      chain.findIdx? (fun b => b.get_header_hash == h))).map (fun i => i + 1)).getLastD 0

end P2PNode

/-! ## Signatures (src/crypto/signatures.py)

DER signatures are modelled at the `(r, s)` level —
`utils.decode_dss_signature` / `encode_dss_signature` translate between
the DER bytes and exactly this pair.  The ECDSA backend
(`public_key.verify`) is the spec's opaque crypto oracle and enters as the
parameter `backendVerify`; `verify_signature` is embedded from the source
around it. -/

namespace SignatureManager

/-- The secp256k1 group order `SECP256k1.order`. -/
def secpOrder : Nat :=
  115792089237316195423570985008687907852837564279074904382605163141518161494337

/-- A DSS signature as its `(r, s)` pair. -/
structure DSSSig where
  r : Nat
  s : Nat
deriving DecidableEq

/-- SignatureManager.normalize_signature: flip `s` to `n - s` when it lies
in the upper half of the order. -/
def normalize_signature (sig : DSSSig) : DSSSig :=
  if sig.s > secpOrder / 2 then { r := sig.r, s := secpOrder - sig.s } else sig

/-- SignatureManager.verify_signature: normalize the signature, then ask
the ECDSA backend. -/
def verify_signature {α β : Type} (backendVerify : α → DSSSig → β → Bool)
    (public_key : α) (signature : DSSSig) (message : β) : Bool :=
  backendVerify public_key (normalize_signature signature) message

end SignatureManager

end Xorcoin

namespace Xorcoin

/-! ## Python `repr` of the dataclasses

Mempool sizes are `len(str(tx).encode())`, the length of the dataclass
`repr`.  The model covers the value shapes the node produces: ints,
ASCII strings without quote or backslash, and printable byte strings. -/

/-- Python `repr` of a byte string of printable ASCII bytes. -/
def pyReprBytes (bs : List Nat) : String :=
  "b'" ++ String.mk (bs.map Char.ofNat) ++ "'"

/-- Python `repr` of a plain ASCII string. -/
def pyReprStr (s : String) : String := "'" ++ s ++ "'"

/-- Python dataclass `repr` of a TxInput. -/
def pyReprTxInput (i : TxInput) : String :=
  "TxInput(prev_tx_hash=" ++ pyReprStr i.prev_tx_hash ++
  ", prev_output_index=" ++ toString i.prev_output_index ++
  ", signature=" ++ pyReprBytes i.signature ++
  ", pubkey=" ++ pyReprBytes i.pubkey ++ ")"

/-- Python dataclass `repr` of a TxOutput. -/
def pyReprTxOutput (o : TxOutput) : String :=
  "TxOutput(amount=" ++ toString o.amount ++
  ", script_pubkey=" ++ pyReprStr o.script_pubkey ++ ")"

/-- Python dataclass `repr` of a Transaction, the string whose encoded
length is the transaction's mempool size. -/
def pyReprTransaction (tx : Transaction) : String :=
  "Transaction(version=" ++ toString tx.version ++
  ", chain_id=" ++ toString tx.chain_id ++
  ", inputs=[" ++ String.intercalate ", " (tx.inputs.map pyReprTxInput) ++
  "], outputs=[" ++ String.intercalate ", " (tx.outputs.map pyReprTxOutput) ++
  "], locktime=" ++ toString tx.locktime ++
  ", timestamp=" ++ toString tx.timestamp ++ ")"

/-- Mempool byte size of a transaction: `len(str(tx).encode())`. -/
def txSize (tx : Transaction) : Nat := (pyReprTransaction tx).length

/-! ## heapq on `(neg_fee_rate, tx_hash)` tuples (CPython `heapq`) -/

/-- Python string comparison: lexicographic on code points. -/
def charListLt : List Char → List Char → Bool
  | [], [] => false
  | [], _ :: _ => true
  | _ :: _, [] => false
  | a :: as, b :: bs =>
      if a.toNat < b.toNat then true
      else if b.toNat < a.toNat then false
      else charListLt as bs

/-- Python string comparison `a < b`. -/
def strLt (a b : String) : Bool := charListLt a.toList b.toList

/-- Python tuple comparison `(a1, a2) < (b1, b2)` for a rate/hash pair. -/
def tupLt (a b : Rat × String) : Bool :=
  decide (a.1 < b.1) || (a.1 == b.1 && strLt a.2 b.2)

/-- CPython `heapq._siftdown(heap, startpos, pos)`: move the new item up
toward `startpos` while it is smaller than its parent.  The position
strictly decreases, so `pos` itself serves as fuel. -/
def siftdownGo : Nat → List (Rat × String) → Nat → Nat → (Rat × String) →
    List (Rat × String)
  | 0, heap, _, pos, newitem => heap.set pos newitem
  | fuel + 1, heap, startpos, pos, newitem =>
      if pos > startpos then
        let parentpos := (pos - 1) / 2
        let parent := heap.getD parentpos default
        if tupLt newitem parent then
          siftdownGo fuel (heap.set pos parent) startpos parentpos newitem
        else heap.set pos newitem
      else heap.set pos newitem

/-- CPython `heapq.heappush`. -/
def heappush (heap : List (Rat × String)) (item : Rat × String) : List (Rat × String) :=
  let h := heap ++ [item]
  siftdownGo h.length h 0 (h.length - 1) item

/-- CPython `heapq._siftup(heap, pos)`: walk the smaller-child path to a
leaf, then sift the displaced item down (up the tree) again.  Child
positions grow geometrically, so the heap length serves as fuel. -/
def siftupGo : Nat → List (Rat × String) → Nat → Nat → (Rat × String) →
    List (Rat × String)
  | 0, heap, startpos, pos, newitem =>
      siftdownGo pos (heap.set pos newitem) startpos pos newitem
  | fuel + 1, heap, startpos, pos, newitem =>
      let endpos := heap.length
      let childpos := 2 * pos + 1
      if childpos < endpos then
        let rightpos := childpos + 1
        let childpos :=
          if rightpos < endpos &&
             ¬ tupLt (heap.getD childpos default) (heap.getD rightpos default) then
            rightpos
          else childpos
        siftupGo fuel (heap.set pos (heap.getD childpos default)) startpos childpos newitem
      else
        siftdownGo pos (heap.set pos newitem) startpos pos newitem

/-- CPython `heapq.heappop`: returns the popped minimum and the remaining
heap. -/
def heappop (heap : List (Rat × String)) : (Rat × String) × List (Rat × String) :=
  let lastelt := heap.getLastD default
  let rest := heap.dropLast
  if rest = [] then (lastelt, [])
  else
    let returnitem := rest.getD 0 default
    (returnitem, siftupGo rest.length (rest.set 0 lastelt) 0 0 lastelt)

/-! ## Mempool (src/xorcoin/core/mempool.py) -/

/-- Mempool state: the txid dict, the `(neg_fee_rate, tx_hash)` heap list,
and the size accounting. -/
structure Mempool where
  transactions : List (String × Transaction) := []
  tx_by_fee : List (Rat × String) := []
  current_size : Nat := 0
  max_size : Nat := 300000000
  min_fee_rate : Rat := mkRat 1 1000

namespace Mempool

/-- Dict insertion for the txid map. -/
def tinsert (l : List (String × Transaction)) (k : String) (tx : Transaction) :
    List (String × Transaction) :=
  if l.any (fun p => p.1 == k) then l.map (fun p => if p.1 == k then (k, tx) else p)
  else l ++ [(k, tx)]

/-- Dict deletion `del d[k]` guarded by `if k in d` as in the source. -/
def tdel (l : List (String × Transaction)) (k : String) : List (String × Transaction) :=
  l.filter (fun p => !(p.1 == k))

/-- The `while self.tx_by_fee and evicted_size < needed_size` loop of
Mempool._make_room, popping the min-fee entry each round; lower-fee
entries are marked for eviction, others are set aside in `temp_heap`.
Returns (evicted_size, to_evict, temp_heap, heap).  Fuel is the heap
length, which the pop shrinks every round. -/
def makeRoomLoop (txs : List (String × Transaction)) (needed_size : Nat) (new_fee_rate : Rat) :
    Nat → List (Rat × String) → Nat → List String → List (Rat × String) →
    Nat × List String × List (Rat × String) × List (Rat × String)
  | 0, heap, evicted, to_evict, temp => (evicted, to_evict, temp, heap)
  | fuel + 1, heap, evicted, to_evict, temp =>
      if heap = [] ∨ ¬ evicted < needed_size then (evicted, to_evict, temp, heap)
      else
        let p := heappop heap
        let fee_rate := -p.1.1
        if fee_rate < new_fee_rate then
          let evicted :=
            match List.lookup p.1.2 txs with
            | some tx => evicted + txSize tx
            | none => evicted
          makeRoomLoop txs needed_size new_fee_rate fuel p.2 evicted (to_evict ++ [p.1.2]) temp
        else
          makeRoomLoop txs needed_size new_fee_rate fuel p.2 evicted to_evict (temp ++ [p.1])

/-- Mempool._make_room: pop low-fee entries, restore the set-aside ones,
and evict the marked transactions only when enough room was found. -/
def make_room (mp : Mempool) (needed_size : Nat) (new_fee_rate : Rat) : Mempool × Bool :=
  let r := makeRoomLoop mp.transactions needed_size new_fee_rate
      mp.tx_by_fee.length mp.tx_by_fee 0 [] []
  let heap := r.2.2.2
  let restored := r.2.2.1.foldl heappush heap
  if r.1 ≥ needed_size then
    ({ mp with tx_by_fee := restored,
               transactions := r.2.1.foldl tdel mp.transactions }, true)
  else ({ mp with tx_by_fee := restored }, false)

/-- Mempool.add_transaction: minimum fee-rate gate, capacity check with
eviction, then index by txid and push `(-fee_rate, tx_hash)`.  The float
`fee / tx_size` is modelled as the exact rational `mkRat fee tx_size`. -/
def add_transaction (mp : Mempool) (tx : Transaction) (fee : Int) : Mempool × Bool :=
  let tx_hash := tx.get_hash
  let tx_size := txSize tx
  let fee_rate : Rat := mkRat fee tx_size
  if fee_rate < mp.min_fee_rate then (mp, false)
  else
    let roomed :=
      if mp.current_size + tx_size > mp.max_size then make_room mp tx_size fee_rate
      else (mp, true)
    if roomed.2 = false then (roomed.1, false)
    else
      let mp := roomed.1
      ({ mp with transactions := tinsert mp.transactions tx_hash tx,
                 tx_by_fee := heappush mp.tx_by_fee (-fee_rate, tx_hash),
                 current_size := mp.current_size + tx_size }, true)

/-- Stable insertion keyed only on the first component, placing the new
element after existing equal keys. -/
def insertByFst (x : Rat × String) : List (Rat × String) → List (Rat × String)
  | [] => [x]
  | y :: ys => if x.1 < y.1 then x :: y :: ys else y :: insertByFst x ys

/-- Python `sorted(tx_by_fee, key=lambda x: x[0])`: a stable sort
comparing only the negated fee rate. -/
def pySortedByFst (l : List (Rat × String)) : List (Rat × String) :=
  l.foldl (fun acc x => insertByFst x acc) []

/-- The selection walk of get_transactions_for_block, kept with its heap
entries: skip entries whose transaction is gone, pack while the block
size allows, and stop at the first transaction that does not fit. -/
def selectLoop (txs : List (String × Transaction)) (max_block_size : Nat) :
    List (Rat × String) → Nat → List ((Rat × String) × Transaction)
  | [], _ => []
  | e :: rest, current_size =>
      match List.lookup e.2 txs with
      | none => selectLoop txs max_block_size rest current_size
      | some tx =>
          if current_size + txSize tx ≤ max_block_size then
            (e, tx) :: selectLoop txs max_block_size rest (current_size + txSize tx)
          else []

/-- Mempool.get_transactions_for_block: sort the heap list by negated fee
rate (stable) and walk it, packing transactions into the block. -/
def get_transactions_for_block (mp : Mempool) (max_block_size : Nat) : List Transaction :=
  (selectLoop mp.transactions max_block_size (pySortedByFst mp.tx_by_fee) 0).map (fun e => e.2)

end Mempool

end Xorcoin

namespace Xorcoin

/-! ## Concrete instances used by the settled statements -/

/-- A difficulty-1 block whose header hash begins with the hex digit 7:
numerically below `2^255` yet without a leading zero nibble. -/
def powBlockSeven : Block := { difficulty := 1, merkle_root := "", nonce := 3 }

/-- A difficulty-1 block whose header hash begins with a zero nibble. -/
def powBlockZero : Block := { difficulty := 1, merkle_root := "", nonce := 25 }

/-- Three small distinct blocks forming a chain for the GETBLOCKS
statements. -/
def gbBlock (n : Int) : Block := { height := n, nonce := n, prev_block_hash := "" }

/-- The three-block chain for the GETBLOCKS statements. -/
def gbChain : List Block := [gbBlock 0, gbBlock 1, gbBlock 2]

/-- A 2016-block chain at the retarget boundary: constant difficulty 4,
blocks spaced 450 seconds apart (three quarters of the 600-second
target). -/
def retargetChain : List Block :=
  (List.range 2016).map (fun (i : Nat) => { difficulty := 4, timestamp := 450 * (i : Int) })

/-- A one-input one-output transaction distinguished by its referenced
txid tag; all instances have the same mempool byte size (199). -/
def feeTx (tag : String) : Transaction :=
  { inputs := [{ prev_tx_hash := tag, prev_output_index := 0 }],
    outputs := [{ amount := 100, script_pubkey := "addrA" }], timestamp := 1 }

/-- The mempool after admitting `feeTx "cc"`, `feeTx "bb"`, `feeTx "aa"`
in that order, each with fee 199 (fee rate exactly 1.0). -/
def feeMempool : Mempool :=
  (Mempool.add_transaction
    (Mempool.add_transaction
      (Mempool.add_transaction {} (feeTx "cc") 199).1
      (feeTx "bb") 199).1
    (feeTx "aa") 199).1

/-- The last addition in a batch whose id is `k`, if any: the value a dict
ends up holding at `k` after inserting every element of the batch keyed by
`get_id`. -/
def lastAddWith (k : String) : List UTXO → Option UTXO
  | [] => none
  | u :: us =>
      match lastAddWith k us with
      | some v => some v
      | none => if u.get_id == k then some u else none

end Xorcoin

namespace Xorcoin

section DictLemmas

variable {β : Type}

theorem lookup_cons_hit {k p1 : String} {x : β} {t : List (String × β)}
    (hkp : (k == p1) = true) : List.lookup k ((p1, x) :: t) = some x := by
  simp [List.lookup, hkp]

theorem lookup_cons_miss {k p1 : String} {x : β} {t : List (String × β)}
    (hkp : (k == p1) = false) : List.lookup k ((p1, x) :: t) = List.lookup k t := by
  simp [List.lookup, hkp]

end DictLemmas

theorem lookup_dpop (l : List (String × UTXO)) (r k : String) :
    List.lookup k (dpop l r) = if k = r then none else List.lookup k l := by
  induction l with
  | nil => simp [dpop]
  | cons p t ih =>
      obtain ⟨p1, p2⟩ := p
      simp only [dpop] at ih ⊢
      rw [List.filter_cons]
      cases hpr : (p1 == r) with
      | true =>
          rw [if_neg (by simp [hpr]), ih]
          by_cases hk : k = r
          · simp [hk]
          · have hkp : (k == p1) = false :=
              beq_eq_false_iff_ne.mpr (fun h => hk (h.trans (eq_of_beq hpr)))
            simp only [if_neg hk]
            rw [lookup_cons_miss hkp]
      | false =>
          rw [if_pos (by simp [hpr])]
          cases hkp : (k == p1) with
          | true =>
              have hkr : ¬ k = r := fun h =>
                (beq_eq_false_iff_ne.mp hpr) ((eq_of_beq hkp).symm.trans h)
              rw [lookup_cons_hit hkp, lookup_cons_hit hkp, if_neg hkr]
          | false => rw [lookup_cons_miss hkp, lookup_cons_miss hkp, ih]

theorem map_dinsert_id (kid : String) (v : UTXO) (t : List (String × UTXO))
    (h : t.any (fun p => p.1 == kid) = false) :
    t.map (fun p => if p.1 == kid then (kid, v) else p) = t := by
  induction t with
  | nil => rfl
  | cons p t ih =>
      simp only [List.any_cons, Bool.or_eq_false_iff] at h
      rw [List.map_cons, if_neg (by simp [h.1]), ih h.2]

theorem lookup_mapReplace (kid k : String) (v : UTXO) :
    ∀ t : List (String × UTXO), t.any (fun p => p.1 == kid) = true →
      List.lookup k (t.map (fun p => if p.1 == kid then (kid, v) else p)) =
        if kid = k then some v else List.lookup k t := by
  intro t
  induction t with
  | nil => intro h; simp at h
  | cons p t ih =>
      intro h
      obtain ⟨p1, p2⟩ := p
      rw [List.map_cons]
      cases hp : (p1 == kid) with
      | true =>
          rw [if_pos rfl]
          cases hkk : (k == kid) with
          | true =>
              rw [lookup_cons_hit hkk, if_pos (eq_of_beq hkk).symm]
          | false =>
              have hne : ¬ kid = k := fun hkid =>
                (beq_eq_false_iff_ne.mp hkk) hkid.symm
              have hkp1 : (k == p1) = false :=
                beq_eq_false_iff_ne.mpr (fun hh =>
                  (beq_eq_false_iff_ne.mp hkk) (hh.trans (eq_of_beq hp)))
              rw [lookup_cons_miss hkk, if_neg hne, lookup_cons_miss hkp1]
              cases hat : (t.any (fun p => p.1 == kid)) with
              | true => rw [ih hat, if_neg hne]
              | false => rw [map_dinsert_id kid v t hat]
      | false =>
          rw [if_neg (by simp [hp])]
          have hat : (t.any (fun p => p.1 == kid)) = true := by
            simp only [List.any_cons, Bool.or_eq_true] at h
            rcases h with h | h
            · exact absurd h (by simp [hp])
            · exact h
          cases hkp : (k == p1) with
          | true =>
              have hne : ¬ kid = k := fun hkid =>
                (beq_eq_false_iff_ne.mp hp) ((eq_of_beq hkp).symm.trans hkid.symm)
              rw [lookup_cons_hit hkp, lookup_cons_hit hkp, if_neg hne]
          | false =>
              rw [lookup_cons_miss hkp, lookup_cons_miss hkp, ih hat]

theorem lookup_append_new (kid k : String) (v : UTXO) :
    ∀ t : List (String × UTXO), t.any (fun p => p.1 == kid) = false →
      List.lookup k (t ++ [(kid, v)]) =
        if kid = k then some v else List.lookup k t := by
  intro t
  induction t with
  | nil =>
      intro _
      cases hkk : (k == kid) with
      | true => simp [lookup_cons_hit hkk, (eq_of_beq hkk).symm]
      | false =>
          have hne : ¬ kid = k := fun h => (beq_eq_false_iff_ne.mp hkk) h.symm
          simp only [List.nil_append, lookup_cons_miss hkk, if_neg hne]
  | cons p t ih =>
      intro h
      obtain ⟨p1, p2⟩ := p
      simp only [List.any_cons, Bool.or_eq_false_iff] at h
      rw [List.cons_append]
      cases hkp : (k == p1) with
      | true =>
          have hne : ¬ kid = k := fun hkid =>
            (by simpa using h.1 : ¬ p1 = kid) ((eq_of_beq hkp).symm.trans hkid.symm)
          rw [lookup_cons_hit hkp, lookup_cons_hit hkp, if_neg hne]
      | false =>
          rw [lookup_cons_miss hkp, lookup_cons_miss hkp, ih h.2]

theorem lookup_dinsert (s : List (String × UTXO)) (kid : String) (v : UTXO) (k : String) :
    List.lookup k (dinsert s kid v) = if kid = k then some v else List.lookup k s := by
  unfold dinsert
  cases hany : (s.any (fun p => p.1 == kid)) with
  | true => rw [if_pos rfl, lookup_mapReplace kid k v s hany]
  | false => rw [if_neg (by simp), lookup_append_new kid k v s hany]

end Xorcoin

namespace Xorcoin

theorem lookup_removeFold :
    ∀ (removes : List String) (s : List (String × UTXO)) (k : String),
      List.lookup k (removes.foldl dpop s) =
        if k ∈ removes then none else List.lookup k s := by
  intro removes
  induction removes with
  | nil => intro s k; simp
  | cons r rs ih =>
      intro s k
      rw [List.foldl_cons, ih, lookup_dpop]
      by_cases hk : k ∈ rs
      · simp [hk]
      · by_cases hkr : k = r
        · simp [hkr]
        · simp [hkr, hk]

theorem lookup_addFold :
    ∀ (adds : List UTXO) (s : List (String × UTXO)) (k : String),
      List.lookup k (adds.foldl (fun s u => dinsert s u.get_id u) s) =
        match lastAddWith k adds with
        | some u => some u
        | none => List.lookup k s := by
  intro adds
  induction adds with
  | nil => intro s k; simp [lastAddWith]
  | cons u us ih =>
      intro s k
      rw [List.foldl_cons, ih]
      cases hlast : lastAddWith k us with
      | some v => simp [lastAddWith, hlast]
      | none =>
          simp only [lastAddWith, hlast]
          rw [lookup_dinsert]
          cases hid : (u.get_id == k) with
          | true =>
              rw [if_pos (eq_of_beq hid)]
              simp
          | false =>
              rw [if_neg (beq_eq_false_iff_ne.mp hid)]
              simp

/-- C3 amended: batch_update never fails — an absent removal target is
silently skipped — and the resulting set is exactly: drop every key in
`to_remove` that is present, then insert the additions (later duplicates
winning).  No UnknownOutpoint error and no all-or-nothing semantics exist
in the code. -/
theorem C3_batch_update_characterization (utxos : List (String × UTXO))
    (to_add : List UTXO) (to_remove : List String) (k : String) :
    List.lookup k (ThreadSafeUTXOSet.batch_update utxos to_add to_remove) =
      match lastAddWith k to_add with
      | some u => some u
      | none => if k ∈ to_remove then none else List.lookup k utxos := by
  unfold ThreadSafeUTXOSet.batch_update
  rw [lookup_addFold]
  cases lastAddWith k to_add <;> simp [lookup_removeFold]

/-- C3 counterexample: a batch removing one absent and one present
outpoint removes the present one and reports nothing — the set is
mutated, not left unchanged. -/
theorem C3_counterexample :
    ThreadSafeUTXOSet.batch_update
        [("aa:0", ⟨"aa", 0, 5, "addrA"⟩), ("bb:0", ⟨"bb", 0, 7, "addrB"⟩)] []
        ["missing:0", "aa:0"] =
      [("bb:0", ⟨"bb", 0, 7, "addrB"⟩)] ∧
    ThreadSafeUTXOSet.batch_update
        [("aa:0", ⟨"aa", 0, 5, "addrA"⟩), ("bb:0", ⟨"bb", 0, 7, "addrB"⟩)] []
        ["missing:0", "aa:0"] ≠
      [("aa:0", ⟨"aa", 0, 5, "addrA"⟩), ("bb:0", ⟨"bb", 0, 7, "addrB"⟩)] := by
  constructor <;> decide

/-- C10: Block.calculate_merkle_root returns the 64-character all-zero
string on a block with no transactions, and for a single-transaction
block it returns that transaction's txid with no further hashing. -/
theorem C10_merkle_edge_cases :
    (∀ b : Block, b.transactions = [] →
        b.calculate_merkle_root = String.mk (List.replicate 64 '0')) ∧
    (∀ (b : Block) (tx : Transaction), b.transactions = [tx] →
        b.calculate_merkle_root = tx.get_hash) := by
  constructor
  · intro b h
    simp [Block.calculate_merkle_root, h]
  · intro b tx h
    simp only [Block.calculate_merkle_root, h]
    rw [if_neg (by simp)]
    rfl

/-- Witness for C10 at two concrete blocks. -/
theorem C10_merkle_edge_cases_witness :
    Block.calculate_merkle_root {} = String.mk (List.replicate 64 '0') ∧
    Block.calculate_merkle_root { transactions := [{}] } =
      Transaction.get_hash {} :=
  ⟨C10_merkle_edge_cases.1 {} rfl,
   C10_merkle_edge_cases.2 { transactions := [{}] } {} rfl⟩

/-- C1 amended: verify_signature maps the signature to its low-S form
before calling the ECDSA backend, so for any backend the high-S
counterpart (r, n−s) verifies exactly when (r, s) does; a high-S
signature is not rejected. -/
theorem C1_highS_normalized_equiv {α β : Type}
    (backendVerify : α → SignatureManager.DSSSig → β → Bool)
    (pk : α) (msg : β) (r s : Nat) (hs : s ≤ SignatureManager.secpOrder / 2) :
    SignatureManager.verify_signature backendVerify pk ⟨r, SignatureManager.secpOrder - s⟩ msg =
      SignatureManager.verify_signature backendVerify pk ⟨r, s⟩ msg := by
  have hbig : SignatureManager.secpOrder - s > SignatureManager.secpOrder / 2 := by
    unfold SignatureManager.secpOrder at hs ⊢
    omega
  have hsub : SignatureManager.secpOrder - (SignatureManager.secpOrder - s) = s := by
    unfold SignatureManager.secpOrder at hs ⊢
    omega
  have hlow : ¬ s > SignatureManager.secpOrder / 2 := Nat.not_lt.mpr hs
  simp only [SignatureManager.verify_signature, SignatureManager.normalize_signature]
  rw [if_pos hbig, if_neg hlow]
  simp [hsub]

/-- Witness for the amended C1 statement at concrete values. -/
theorem C1_highS_normalized_equiv_witness :
    SignatureManager.verify_signature
        (fun (_ : Unit) (sig : SignatureManager.DSSSig) (_ : Unit) => sig.s == 7) ()
        ⟨1, SignatureManager.secpOrder - 7⟩ () =
      SignatureManager.verify_signature
        (fun (_ : Unit) (sig : SignatureManager.DSSSig) (_ : Unit) => sig.s == 7) ()
        ⟨1, 7⟩ () :=
  C1_highS_normalized_equiv _ () () 1 7 (by decide)

/-- C1 counterexample: with a backend that accepts exactly the low-S pair
(1, 7), the high-S signature (1, n−7) also passes verify_signature — it
is normalized to (1, 7) first — so a high-S signature does not fail
verification. -/
theorem C1_counterexample :
    SignatureManager.secpOrder - 7 > SignatureManager.secpOrder / 2 ∧
    SignatureManager.verify_signature
        (fun (_ : Unit) (sig : SignatureManager.DSSSig) (_ : Unit) =>
          sig.r == 1 && sig.s == 7)
        () ⟨1, SignatureManager.secpOrder - 7⟩ () = true := by
  constructor
  · decide
  · decide

end Xorcoin

namespace Xorcoin

theorem inputsLoop_some (utxo_set : List (String × UTXO)) (mempool : List Transaction)
    (sigOk : Transaction → Nat → String → Bool) (tx : Transaction) :
    ∀ (l : List (Nat × TxInput)) (used : List String) (t0 total : Int),
      TransactionValidator.inputsLoop utxo_set mempool sigOk tx l used t0 = some total →
      total = t0 + ((l.map (fun e =>
        match List.lookup e.2.get_utxo_id utxo_set with
        | some u => u.amount
        | none => 0)).sum) := by
  intro l
  induction l with
  | nil =>
      intro used t0 total h
      simp only [TransactionValidator.inputsLoop, Option.some.injEq] at h
      simp [h]
  | cons e rest ih =>
      intro used t0 total h
      obtain ⟨idx, inp⟩ := e
      unfold TransactionValidator.inputsLoop at h
      cases hu : List.lookup inp.get_utxo_id utxo_set with
      | none => rw [hu] at h; exact absurd h (by simp)
      | some u =>
          rw [hu] at h
          dsimp only at h
          by_cases h1 : used.contains inp.get_utxo_id
          · rw [if_pos h1] at h; exact absurd h (by simp)
          · rw [if_neg h1] at h
            by_cases h2 : ¬ sigOk tx idx u.script_pubkey
            · rw [if_pos h2] at h; exact absurd h (by simp)
            · rw [if_neg h2] at h
              by_cases h3 : TransactionValidator.is_double_spend_in_mempool mempool
                  inp.get_utxo_id
              · rw [if_pos h3] at h; exact absurd h (by simp)
              · rw [if_neg h3] at h
                have := ih _ _ _ h
                rw [this]
                simp only [List.map_cons, List.sum_cons, hu]
                omega

/-- C4 amended (supporting half): whenever validate_transaction accepts, the
output total is bounded by the referenced input total. -/
theorem C4_sum_check_enforced (utxo_set : List (String × UTXO))
    (mempool : List Transaction) (sigOk : Transaction → Nat → String → Bool)
    (now : Int) (tx : Transaction)
    (h : TransactionValidator.validate_transaction utxo_set mempool sigOk now tx = true) :
    TransactionValidator.totalOutputAmount tx ≤
      TransactionValidator.referencedAmount utxo_set tx := by
  unfold TransactionValidator.validate_transaction at h
  split_ifs at h
  cases hloop : TransactionValidator.inputsLoop utxo_set mempool sigOk tx
      (List.zip (List.range tx.inputs.length) tx.inputs) [] 0 with
  | none => rw [hloop] at h; exact absurd h (by simp)
  | some total =>
      rw [hloop] at h
      have hge : total ≥ TransactionValidator.totalOutputAmount tx := of_decide_eq_true h
      have hsum := inputsLoop_some utxo_set mempool sigOk tx _ [] 0 total hloop
      have hzip : ((List.zip (List.range tx.inputs.length) tx.inputs).map
          (fun e => match List.lookup e.2.get_utxo_id utxo_set with
            | some u => u.amount
            | none => 0)).sum = TransactionValidator.referencedAmount utxo_set tx := by
        unfold TransactionValidator.referencedAmount
        have hm : ((List.zip (List.range tx.inputs.length) tx.inputs).map Prod.snd) =
            tx.inputs :=
          List.map_snd_zip _ _ (by simp)
        calc ((List.zip (List.range tx.inputs.length) tx.inputs).map
                (fun e => match List.lookup e.2.get_utxo_id utxo_set with
                  | some u => u.amount
                  | none => 0)).sum
            = (((List.zip (List.range tx.inputs.length) tx.inputs).map Prod.snd).map
                (fun inp => match List.lookup inp.get_utxo_id utxo_set with
                  | some u => u.amount
                  | none => 0)).sum := by rw [List.map_map]; rfl
          _ = _ := by rw [hm]
      rw [hsum, hzip] at hge
      omega

/-- C4 counterexample: a transaction whose only output has amount 0
passes validate_transaction (with the signature oracle succeeding), so
output positivity is not checked. -/
theorem C4_counterexample :
    TransactionValidator.validate_transaction
        [("aa:0", ⟨"aa", 0, 5, "addrA"⟩)] [] (fun _ _ _ => true) 1000000
        { inputs := [{ prev_tx_hash := "aa", prev_output_index := 0 }],
          outputs := [{ amount := 0, script_pubkey := "addrB" }] } = true := by
  decide

/-- Witness for the amended C4 statement at a concrete accepting input. -/
theorem C4_sum_check_enforced_witness :
    TransactionValidator.totalOutputAmount
        { inputs := [{ prev_tx_hash := "aa", prev_output_index := 0 }],
          outputs := [{ amount := 0, script_pubkey := "addrB" }] } ≤
      TransactionValidator.referencedAmount [("aa:0", ⟨"aa", 0, 5, "addrA"⟩)]
        { inputs := [{ prev_tx_hash := "aa", prev_output_index := 0 }],
          outputs := [{ amount := 0, script_pubkey := "addrB" }] } :=
  C4_sum_check_enforced [("aa:0", ⟨"aa", 0, 5, "addrA"⟩)] [] (fun _ _ _ => true) 1000000
    { inputs := [{ prev_tx_hash := "aa", prev_output_index := 0 }],
      outputs := [{ amount := 0, script_pubkey := "addrB" }] } (by decide)

end Xorcoin

namespace Xorcoin

namespace DoubleSpendProtector

theorem mem_sadd (s : List String) (y x : String) :
    x ∈ sadd s y ↔ x ∈ s ∨ x = y := by
  unfold sadd
  by_cases hc : s.contains y
  · have hy : y ∈ s := by simpa using hc
    simp only [if_pos hc]
    constructor
    · exact Or.inl
    · rintro (hx | rfl)
      · exact hx
      · exact hy
  · simp only [if_neg hc, List.mem_append, List.mem_singleton]

theorem mem_ppop (l : List (String × Transaction)) (k : String)
    (q : String × Transaction) (h : q ∈ ppop l k) : q ∈ l ∧ q.1 ≠ k := by
  unfold ppop at h
  have := List.mem_filter.mp h
  refine ⟨this.1, ?_⟩
  simpa using this.2

theorem mem_pinsert (l : List (String × Transaction)) (k : String) (v : Transaction)
    (q : String × Transaction) (h : q ∈ pinsert l k v) : q.1 = k ∨ q ∈ l := by
  unfold pinsert at h
  by_cases hany : l.any (fun p => p.1 == k)
  · rw [if_pos hany] at h
    obtain ⟨p, hp, hq⟩ := List.mem_map.mp h
    by_cases hpk : (p.1 == k) = true
    · rw [if_pos hpk] at hq
      left
      rw [← hq]
    · rw [if_neg hpk] at hq
      right
      rw [← hq]
      exact hp
  · rw [if_neg hany] at h
    rcases List.mem_append.mp h with h | h
    · right; exact h
    · left
      rw [List.mem_singleton.mp h]

theorem mem_lock_fold (tx : Transaction) :
    ∀ (inputs : List TxInput) (d : List (String × Transaction))
      (q : String × Transaction),
      q ∈ inputs.foldl (fun d inp => pinsert d inp.get_utxo_id tx) d →
      q ∈ d ∨ ∃ inp ∈ inputs, q.1 = inp.get_utxo_id := by
  intro inputs
  induction inputs with
  | nil => intro d q h; exact Or.inl h
  | cons i rest ih =>
      intro d q h
      rw [List.foldl_cons] at h
      rcases ih _ q h with h2 | h2
      · rcases mem_pinsert _ _ _ _ h2 with h3 | h3
        · right; exact ⟨i, by simp, h3⟩
        · left; exact h3
      · obtain ⟨inp, hinp, hq⟩ := h2
        right; exact ⟨inp, by simp [hinp], hq⟩

theorem step_preserves_disjoint (p : DoubleSpendProtector) (op : Op)
    (h : ∀ q ∈ p.pending_utxos, q.1 ∉ p.spent_utxos) :
    ∀ q ∈ (step p op).pending_utxos, q.1 ∉ (step p op).spent_utxos := by
  cases op with
  | lock tx =>
      simp only [step, check_and_lock_utxos]
      by_cases hc : tx.inputs.any (fun inp =>
          p.spent_utxos.contains inp.get_utxo_id ||
          p.pending_utxos.any (fun q => q.1 == inp.get_utxo_id))
      · rw [if_pos hc]
        exact h
      · rw [if_neg hc]
        dsimp only
        intro q hq
        rcases mem_lock_fold tx tx.inputs p.pending_utxos q hq with h2 | h2
        · exact h q h2
        · obtain ⟨inp, hinp, hq1⟩ := h2
          have hall := List.any_eq_false.mp (eq_false_of_ne_true hc)
          have hni := hall inp hinp
          simp only [Bool.or_eq_true, not_or] at hni
          rw [hq1]
          intro hmem
          exact hni.1 (by simpa [List.contains] using List.elem_eq_true_of_mem hmem)
  | commit tx =>
      simp only [step, commit_transaction]
      revert p
      induction tx.inputs with
      | nil => intro p h; exact h
      | cons i rest ih =>
          intro p h
          rw [List.foldl_cons]
          refine ih _ ?_
          intro q2 hq2
          have h2 := mem_ppop _ _ _ hq2
          rw [mem_sadd]
          rintro (hsp | hk)
          · exact h q2 h2.1 hsp
          · exact h2.2 hk
  | rollback tx =>
      simp only [step, rollback_transaction]
      revert p
      induction tx.inputs with
      | nil => intro p h; exact h
      | cons i rest ih =>
          intro p h
          rw [List.foldl_cons]
          refine ih _ ?_
          intro q2 hq2
          exact h q2 (mem_ppop _ _ _ hq2).1

theorem run_disjoint :
    ∀ (ops : List Op) (p : DoubleSpendProtector),
      (∀ q ∈ p.pending_utxos, q.1 ∉ p.spent_utxos) →
      ∀ q ∈ (ops.foldl step p).pending_utxos,
        q.1 ∉ (ops.foldl step p).spent_utxos := by
  intro ops
  induction ops with
  | nil => intro p h; exact h
  | cons op rest ih =>
      intro p h
      rw [List.foldl_cons]
      exact ih _ (step_preserves_disjoint p op h)

end DoubleSpendProtector

/-- C9: from the empty guard, after any sequence of lock, commit and
rollback operations the pending map and the spent set stay disjoint. -/
theorem C9_guard_sets_disjoint (ops : List DoubleSpendProtector.Op) :
    DoubleSpendProtector.disjointSets (DoubleSpendProtector.run ops) = true := by
  unfold DoubleSpendProtector.disjointSets DoubleSpendProtector.run
  rw [List.all_eq_true]
  intro q hq
  have := DoubleSpendProtector.run_disjoint ops {} (by simp) q hq
  simpa [List.contains] using this

end Xorcoin

namespace Xorcoin

theorem getblocksStartFrom_eq (chain : List Block) :
    ∀ (loc : List String) (acc : Nat),
      P2PNode.getblocksStartFrom chain loc acc =
        ((loc.filterMap (fun h =>
            chain.findIdx? (fun b => b.get_header_hash == h))).map (fun i => i + 1)).getLastD acc := by
  intro loc
  induction loc with
  | nil => intro acc; rfl
  | cons h t ih =>
      intro acc
      unfold P2PNode.getblocksStartFrom
      rw [List.foldl_cons]
      cases hg : chain.findIdx? (fun b => b.get_header_hash == h) with
      | none =>
          dsimp only
          have := ih acc
          unfold P2PNode.getblocksStartFrom at this
          rw [this]
          simp [List.filterMap_cons, hg]
      | some i =>
          dsimp only
          have := ih (i + 1)
          unfold P2PNode.getblocksStartFrom at this
          rw [this]
          simp only [List.filterMap_cons, hg, List.map_cons]
          rw [List.getLastD_cons]

/-- C8 amended: the GETBLOCKS reply starts one past the last locator entry
(in request order) that occurs in the chain, not the highest one. -/
theorem C8_getblocks_last_recognized_wins (chain : List Block) (locator : List String)
    (stop_hash : String) :
    P2PNode.getblocksStart chain locator = P2PNode.lastRecognizedStart chain locator ∧
    P2PNode.getblocksInv chain locator stop_hash =
      P2PNode.invTake
        ((chain.drop (P2PNode.lastRecognizedStart chain locator)).take 500) stop_hash := by
  have h1 : P2PNode.getblocksStart chain locator =
      P2PNode.lastRecognizedStart chain locator := by
    unfold P2PNode.getblocksStart P2PNode.lastRecognizedStart
    exact getblocksStartFrom_eq chain locator 0
  refine ⟨h1, ?_⟩
  unfold P2PNode.getblocksInv
  rw [h1]

end Xorcoin

namespace Xorcoin

set_option maxHeartbeats 100000000 in
/-- C8 counterexample: on the chain [b0, b1, b2] with locator
[hash b2, hash b0] (descending, as locators are built), the node
recognizes b2 at index 2 yet replies with the blocks after b0 —
[hash b1, hash b2] — because the last locator entry it recognizes wins,
not the highest. -/
theorem C8_counterexample :
    List.findIdx? (fun b => b.get_header_hash == (gbBlock 2).get_header_hash) gbChain =
      some 2 ∧
    P2PNode.getblocksInv gbChain
        [(gbBlock 2).get_header_hash, (gbBlock 0).get_header_hash]
        (String.mk (List.replicate 64 '0')) =
      [(gbBlock 1).get_header_hash, (gbBlock 2).get_header_hash] ∧
    [(gbBlock 1).get_header_hash, (gbBlock 2).get_header_hash] ≠ ([] : List String) := by
  refine ⟨by decide, by decide, by simp⟩

end Xorcoin

namespace Xorcoin

theorem toList_mk (l : List Char) : (String.mk l).toList = l := rfl

theorem roundStep_length (st : List Nat) (kw : Nat × Nat) :
    (roundStep st kw).length = st.length := by
  unfold roundStep
  split <;> simp

theorem foldl_roundStep_length (l : List (Nat × Nat)) :
    ∀ st : List Nat, (l.foldl roundStep st).length = st.length := by
  induction l with
  | nil => intro st; rfl
  | cons kw t ih =>
      intro st
      rw [List.foldl_cons, ih, roundStep_length]

theorem compress_length (h8 block : List Nat) (h : h8.length = 8) :
    (compress h8 block).length = 8 := by
  unfold compress
  rw [List.length_map, List.length_zip, foldl_roundStep_length, h]
  rfl

theorem foldl_compress_length (blocks : List (List Nat)) :
    ∀ h8 : List Nat, h8.length = 8 → (blocks.foldl compress h8).length = 8 := by
  induction blocks with
  | nil => intro h8 h; exact h
  | cons blk t ih =>
      intro h8 h
      rw [List.foldl_cons]
      exact ih _ (compress_length h8 blk h)

theorem stateBytes_length (h8 : List Nat) : (stateBytes h8).length = 4 * h8.length := by
  induction h8 with
  | nil => rfl
  | cons w t ih =>
      unfold stateBytes at ih ⊢
      rw [List.foldr_cons, List.length_append, ih]
      simp
      omega

theorem mem_stateBytes_lt (h8 : List Nat) : ∀ b ∈ stateBytes h8, b < 256 := by
  induction h8 with
  | nil => intro b h; simp [stateBytes] at h
  | cons w t ih =>
      intro b hb
      unfold stateBytes at hb
      rw [List.foldr_cons, List.mem_append] at hb
      rcases hb with hb | hb
      · simp only [List.mem_cons, List.mem_singleton] at hb
        rcases hb with rfl | rfl | rfl | ⟨rfl | h⟩ <;>
          first
          | exact Nat.mod_lt _ (by norm_num)
          | simp at *
      · exact ih b hb

theorem sha256bytes_length (ms : List Nat) : (sha256bytes ms).length = 32 := by
  unfold sha256bytes
  rw [stateBytes_length, foldl_compress_length _ H256 rfl]

theorem sha256bytes_lt (ms : List Nat) : ∀ b ∈ sha256bytes ms, b < 256 := by
  unfold sha256bytes
  exact mem_stateBytes_lt _

theorem hexChars_length (bs : List Nat) :
    (bs.foldr (fun b acc => hexByte b ++ acc) []).length = 2 * bs.length := by
  induction bs with
  | nil => rfl
  | cons b t ih =>
      rw [List.foldr_cons, List.length_append, ih]
      simp [hexByte]
      omega

theorem hexVal_hexChar (x : Nat) (h : x < 16) : hexVal (hexChar x) < 16 := by
  interval_cases x <;> decide

theorem hexChars_valid (bs : List Nat) (hb : ∀ b ∈ bs, b < 256) :
    ∀ c ∈ bs.foldr (fun b acc => hexByte b ++ acc) [], hexVal c < 16 := by
  induction bs with
  | nil => intro c h; simp at h
  | cons b t ih =>
      intro c hc
      rw [List.foldr_cons, List.mem_append] at hc
      have hblt : b < 256 := hb b (by simp)
      rcases hc with hc | hc
      · simp only [hexByte, List.mem_cons, List.mem_singleton] at hc
        rcases hc with rfl | rfl | h
        · exact hexVal_hexChar _ (by omega)
        · exact hexVal_hexChar _ (by omega)
        · simp at h
      · exact ih (fun x hx => hb x (by simp [hx])) c hc

theorem hexfold_zero_prefix :
    ∀ (d : Nat) (l : List Char),
      (List.replicate d '0' ++ l).foldl (fun acc c => 16 * acc + hexVal c) 0 =
        l.foldl (fun acc c => 16 * acc + hexVal c) 0 := by
  intro d
  induction d with
  | zero => intro l; rfl
  | succ n ih =>
      intro l
      rw [List.replicate_succ, List.cons_append, List.foldl_cons]
      exact ih l

theorem hexfold_lt :
    ∀ (l : List Char) (acc : Nat), (∀ c ∈ l, hexVal c < 16) →
      l.foldl (fun acc c => 16 * acc + hexVal c) acc < (acc + 1) * 16 ^ l.length := by
  intro l
  induction l with
  | nil => intro acc _; simp
  | cons c t ih =>
      intro acc hval
      rw [List.foldl_cons]
      have h1 := ih (16 * acc + hexVal c) (fun x hx => hval x (by simp [hx]))
      have h2 : hexVal c < 16 := hval c (by simp)
      calc t.foldl (fun acc c => 16 * acc + hexVal c) (16 * acc + hexVal c)
          < (16 * acc + hexVal c + 1) * 16 ^ t.length := h1
        _ ≤ ((acc + 1) * 16) * 16 ^ t.length := by
            have : 16 * acc + hexVal c + 1 ≤ (acc + 1) * 16 := by omega
            exact Nat.mul_le_mul_right _ this
        _ = (acc + 1) * 16 ^ (c :: t).length := by
            rw [List.length_cons, pow_succ]
            ring

end Xorcoin

namespace Xorcoin

/-- C2 amended: the numeric target is `2^(256 - max(difficulty, 1))` — not
`2^(256 - 4*difficulty)` — and for positive difficulty the hex-prefix check
of BlockValidator only implies the numeric check of ProofOfWork, which
accepts strictly more header hashes. -/
theorem C2_numeric_target_superset :
    (∀ d : Int, ProofOfWork.calculate_target d = 2 ^ (256 - (max d 1).toNat)) ∧
    (∀ b : Block, 1 ≤ b.difficulty → BlockValidator.validate_pow b = true →
      ProofOfWork.verify_pow b = true) := by
  constructor
  · intro d
    have h0 : ProofOfWork.calculate_target d =
        2 ^ (256 - (if d < 1 then 1 else d.toNat)) := rfl
    have h1 : (if d < 1 then 1 else d.toNat) = (max d 1).toNat := by
      split_ifs with h <;> omega
    rw [h0, h1]
  · intro b hd h
    set bs := sha256bytes (sha256bytes (strBytes b.headerData)) with hbs
    set cs := bs.foldr (fun x acc => hexByte x ++ acc) [] with hcs
    have hlen : cs.length = 64 := by
      rw [hcs, hexChars_length, hbs, sha256bytes_length]
    have hvalid : ∀ c ∈ cs, hexVal c < 16 := by
      rw [hcs]
      exact hexChars_valid bs (by rw [hbs]; exact sha256bytes_lt _)
    have htl : b.get_header_hash.toList = cs := by
      rw [hcs, hbs]
      simp only [Block.get_header_hash, hexOfBytes]
      rw [toList_mk]
    unfold BlockValidator.validate_pow at h
    rw [htl] at h
    obtain ⟨t, ht⟩ := List.isPrefixOf_iff_prefix.mp h
    have hlens : b.difficulty.toNat + t.length = 64 := by
      have := congrArg List.length ht
      simpa [List.length_append, List.length_replicate, hlen] using this
    have hval : ProofOfWork.hash_to_int b.get_header_hash =
        t.foldl (fun acc c => 16 * acc + hexVal c) 0 := by
      show b.get_header_hash.toList.foldl (fun acc c => 16 * acc + hexVal c) 0 = _
      rw [htl, ← ht, hexfold_zero_prefix]
    have htval : ∀ c ∈ t, hexVal c < 16 := fun c hc =>
      hvalid c (by rw [← ht]; exact List.mem_append_right _ hc)
    have hbound : t.foldl (fun acc c => 16 * acc + hexVal c) 0 < 2 ^ (4 * t.length) := by
      have := hexfold_lt t 0 htval
      rw [show (16 : Nat) = 2 ^ 4 from rfl, ← pow_mul] at this
      simpa using this
    have htarget : ProofOfWork.calculate_target b.difficulty =
        2 ^ (256 - b.difficulty.toNat) := by
      have h0 : ProofOfWork.calculate_target b.difficulty =
          2 ^ (256 - (if b.difficulty < 1 then 1 else b.difficulty.toNat)) := rfl
      rw [h0, if_neg (by omega)]
    have hexp : 4 * t.length ≤ 256 - b.difficulty.toNat := by omega
    have final : ProofOfWork.hash_to_int b.get_header_hash <
        ProofOfWork.calculate_target b.difficulty := by
      rw [hval, htarget]
      exact lt_of_lt_of_le hbound (Nat.pow_le_pow_right (by norm_num) hexp)
    unfold ProofOfWork.verify_pow
    exact decide_eq_true final

set_option maxHeartbeats 40000000 in
/-- C2 counterexample: a difficulty-1 block whose header hash starts with
the hex digit 7: its hash value lies below the numeric target 2^255, so
ProofOfWork.verify_pow accepts it, while BlockValidator._validate_pow
rejects it for want of a leading zero nibble; and the numeric target for
difficulty 1 is 2^255, not 2^(256-4). -/
theorem C2_counterexample :
    ProofOfWork.verify_pow powBlockSeven = true ∧
    BlockValidator.validate_pow powBlockSeven = false ∧
    ProofOfWork.calculate_target 1 = 2 ^ 255 ∧
    (2 : Nat) ^ 255 ≠ 2 ^ (256 - 4 * 1) := by
  refine ⟨by decide, by decide, rfl, by decide⟩

set_option maxHeartbeats 40000000 in
/-- Witness for the amended C2 statement at a concrete block. -/
theorem C2_numeric_target_superset_witness :
    ProofOfWork.verify_pow powBlockZero = true ∧
    ProofOfWork.calculate_target 3 = 2 ^ 253 :=
  ⟨C2_numeric_target_superset.2 powBlockZero (by decide) (by decide),
   C2_numeric_target_superset.1 3⟩

end Xorcoin

namespace Xorcoin

theorem map_outpoint_render (l : List TxInput) :
    (l.map (fun i => (i.prev_tx_hash, i.prev_output_index))).map
        (fun p => jobj [("prev_output_index", jint p.2), ("prev_tx_hash", jstr p.1)]) =
      l.map (fun inp =>
        jobj [("prev_output_index", jint inp.prev_output_index),
              ("prev_tx_hash", jstr inp.prev_tx_hash)]) := by
  rw [List.map_map]
  rfl

/-- C5 amended: the txid serialization is a function of exactly version,
chain_id, the input outpoints, the outputs and locktime — signatures,
pubkeys and the timestamp are all excluded — and each of those five fields
genuinely appears in the serialized string. -/
theorem C5_txid_core_fields :
    (∀ t1 t2 : Transaction, t1.version = t2.version → t1.chain_id = t2.chain_id →
        t1.inputs.map (fun i => (i.prev_tx_hash, i.prev_output_index)) =
          t2.inputs.map (fun i => (i.prev_tx_hash, i.prev_output_index)) →
        t1.outputs = t2.outputs → t1.locktime = t2.locktime →
        t1.get_hash = t2.get_hash) ∧
    ({ version := 2 } : Transaction).txidData ≠ ({ version := 3 } : Transaction).txidData ∧
    ({ chain_id := 1 } : Transaction).txidData ≠ ({ chain_id := 2 } : Transaction).txidData ∧
    ({ inputs := [{ prev_tx_hash := "aa", prev_output_index := 0 }] } : Transaction).txidData ≠
      ({ inputs := [{ prev_tx_hash := "aa", prev_output_index := 1 }] } : Transaction).txidData ∧
    ({ outputs := [{ amount := 1, script_pubkey := "a" }] } : Transaction).txidData ≠
      ({ outputs := [{ amount := 2, script_pubkey := "a" }] } : Transaction).txidData ∧
    ({ locktime := 0 } : Transaction).txidData ≠ ({ locktime := 1 } : Transaction).txidData := by
  refine ⟨?_, by decide, by decide, by decide, by decide, by decide⟩
  intro t1 t2 hv hc hi ho hl
  have hdata : t1.txidData = t2.txidData := by
    unfold Transaction.txidData
    rw [hv, hc, ho, hl, ← map_outpoint_render t1.inputs, hi, map_outpoint_render t2.inputs]
  unfold Transaction.get_hash
  rw [hdata]

/-- Witness for the amended C5 statement: two transactions differing only
in an input signature share a txid. -/
theorem C5_txid_core_fields_witness :
    Transaction.get_hash
        { inputs := [{ prev_tx_hash := "aa", prev_output_index := 0, signature := [1] }] } =
      Transaction.get_hash
        { inputs := [{ prev_tx_hash := "aa", prev_output_index := 0 }] } :=
  C5_txid_core_fields.1 _ _ rfl rfl rfl rfl rfl

/-- C5 counterexample: two transactions that differ only in their
timestamp have the same txid, so the timestamp is not part of the hashed
serialization. -/
theorem C5_counterexample :
    ({ timestamp := 5 } : Transaction).timestamp ≠
      ({ timestamp := 9 } : Transaction).timestamp ∧
    ({ timestamp := 5 } : Transaction).get_hash =
      ({ timestamp := 9 } : Transaction).get_hash := by
  constructor
  · decide
  · have h : ({ timestamp := 5 } : Transaction).txidData =
        ({ timestamp := 9 } : Transaction).txidData := rfl
    unfold Transaction.get_hash
    rw [h]

end Xorcoin

namespace Xorcoin

/-- C6 amended: at (and past) the retarget boundary, the consensus code
adjusts difficulty by the ±1 step rule — +1 when the 2016-block timespan
is under half of 1209600 seconds, max(1, d−1) when over double, unchanged
otherwise — and the economics-module transcription of the spec's
clamp/floor formula raises AttributeError on every call. -/
theorem C6_plus_minus_one (chain : List Block) (h : 2016 ≤ chain.length) :
    (ConsensusRules.calculate_next_difficulty chain =
      if (chain.getLastD {}).timestamp -
          (chain.getD (chain.length - 2016) {}).timestamp < 604800 then
        (chain.getLastD {}).difficulty + 1
      else if 2419200 < (chain.getLastD {}).timestamp -
          (chain.getD (chain.length - 2016) {}).timestamp then
        max 1 ((chain.getLastD {}).difficulty - 1)
      else (chain.getLastD {}).difficulty) ∧
    DifficultyAdjustment.calculate_next_difficulty chain
        (chain.getLastD {}).difficulty =
      Except.error
        "AttributeError: type object has no attribute DIFFICULTY_ADJUSTMENT_INTERVAL" := by
  refine ⟨?_, rfl⟩
  simp only [ConsensusRules.calculate_next_difficulty,
    ConsensusRules.DIFFICULTY_ADJUSTMENT_INTERVAL, ConsensusRules.TARGET_BLOCK_TIME]
  rw [if_neg (by omega)]
  simp only [gt_iff_lt]
  generalize (chain.getLastD ({} : Block)).difficulty = d
  generalize hT : (chain.getLastD ({} : Block)).timestamp -
    (chain.getD (chain.length - 2016) ({} : Block)).timestamp = t
  have hconst : (((2016 : Nat) : Int) * 600 : Int) = (1209600 : Int) := by norm_num
  rw [hconst]
  have hhalf : (((1209600 : Int) : Rat)) / 2 = ((604800 : Int) : Rat) := by norm_num
  have hdbl : (((1209600 : Int) : Rat)) * 2 = ((2419200 : Int) : Rat) := by norm_num
  rw [hhalf, hdbl]
  simp only [Int.cast_lt]

theorem retargetChain_length : retargetChain.length = 2016 := by
  rw [retargetChain, List.length_map, List.length_range]

theorem retargetChain_last :
    retargetChain.getLastD {} = { difficulty := 4, timestamp := 450 * 2015 } := by
  rw [retargetChain, List.getLastD_eq_getLast?, List.getLast?_map,
    show (2016 : Nat) = 2015 + 1 from rfl, List.range_succ, List.getLast?_concat]
  decide

theorem retargetChain_first :
    retargetChain.getD 0 {} = { difficulty := 4, timestamp := 0 } := by
  rw [retargetChain, show (2016 : Nat) = 2015 + 1 from rfl, List.range_succ_eq_map,
    List.map_cons, List.getD_cons_zero]
  norm_num

theorem retargetChain_next_difficulty :
    ConsensusRules.calculate_next_difficulty retargetChain = 4 := by
  unfold ConsensusRules.calculate_next_difficulty
    ConsensusRules.DIFFICULTY_ADJUSTMENT_INTERVAL ConsensusRules.TARGET_BLOCK_TIME
  rw [if_neg (by rw [retargetChain_length]; decide)]
  rw [retargetChain_length, show (2016 : Nat) - 2016 = 0 from rfl,
    retargetChain_first, retargetChain_last]
  norm_num

/-- Witness for the amended C6 statement at the concrete retarget chain. -/
theorem C6_plus_minus_one_witness :
    ConsensusRules.calculate_next_difficulty retargetChain = 4 := by
  have h := (C6_plus_minus_one retargetChain (by rw [retargetChain_length])).1
  rw [h, retargetChain_length, show (2016 : Nat) - 2016 = 0 from rfl,
    retargetChain_first, retargetChain_last]
  norm_num

/-- C6 counterexample: a 2016-block boundary chain spaced 450 seconds
apart.  The consensus code leaves difficulty at 4 (the timespan 906750 is
neither below half nor above double the expected time), while the spec
formula yields 5 — ratio 0.75, so d + max(1, floor((1−0.75)·2)) = d + 1 —
under either reading of the expected timespan (2016·600 or 2015·600). -/
theorem C6_counterexample :
    retargetChain.length = 2016 ∧
    (retargetChain.getLastD {}).timestamp -
      (retargetChain.getD 0 {}).timestamp = 906750 ∧
    ConsensusRules.calculate_next_difficulty retargetChain = 4 ∧
    specFormulaNextDifficulty 4 906750 1209600 = 5 ∧
    specFormulaNextDifficulty 4 906750 1209000 = 5 := by
  refine ⟨retargetChain_length, ?_, retargetChain_next_difficulty, ?_, ?_⟩
  · rw [retargetChain_last, retargetChain_first]
    norm_num
  · unfold specFormulaNextDifficulty
    have hm : max (1 / 4 : Rat)
        (min 4 (((906750 : Int) : Rat) / ((1209600 : Int) : Rat))) =
          (906750 : Rat) / 1209600 := by
      rw [min_eq_right (by norm_num), max_eq_right (by norm_num)]
      norm_num
    rw [hm, if_pos (by norm_num)]
    have hfl : Int.floor ((1 - (906750 : Rat) / 1209600) * 2) = 0 := by
      rw [Int.floor_eq_iff]
      constructor <;> norm_num
    rw [hfl]
    decide
  · unfold specFormulaNextDifficulty
    have hm : max (1 / 4 : Rat)
        (min 4 (((906750 : Int) : Rat) / ((1209000 : Int) : Rat))) =
          (906750 : Rat) / 1209000 := by
      rw [min_eq_right (by norm_num), max_eq_right (by norm_num)]
      norm_num
    rw [hm, if_pos (by norm_num)]
    have hfl : Int.floor ((1 - (906750 : Rat) / 1209000) * 2) = 0 := by
      rw [Int.floor_eq_iff]
      constructor <;> norm_num
    rw [hfl]
    decide

end Xorcoin

namespace Xorcoin

namespace Mempool

theorem mem_insertByFst (x : Rat × String) :
    ∀ (l : List (Rat × String)) (z : Rat × String),
      z ∈ insertByFst x l → z = x ∨ z ∈ l := by
  intro l
  induction l with
  | nil =>
      intro z hz
      simp only [insertByFst, List.mem_singleton] at hz
      exact Or.inl hz
  | cons y ys ih =>
      intro z hz
      unfold insertByFst at hz
      by_cases hlt : x.1 < y.1
      · rw [if_pos hlt] at hz
        rcases List.mem_cons.mp hz with rfl | hz
        · exact Or.inl rfl
        · exact Or.inr hz
      · rw [if_neg hlt] at hz
        rcases List.mem_cons.mp hz with rfl | hz
        · exact Or.inr (by simp)
        · rcases ih z hz with h | h
          · exact Or.inl h
          · exact Or.inr (by simp [h])

theorem pairwise_insertByFst (x : Rat × String) :
    ∀ l : List (Rat × String),
      List.Pairwise (fun a b => a.1 ≤ b.1) l →
      List.Pairwise (fun a b => a.1 ≤ b.1) (insertByFst x l) := by
  intro l
  induction l with
  | nil => intro _; simp [insertByFst]
  | cons y ys ih =>
      intro hp
      rw [List.pairwise_cons] at hp
      unfold insertByFst
      by_cases hlt : x.1 < y.1
      · rw [if_pos hlt]
        rw [List.pairwise_cons]
        constructor
        · intro z hz
          rcases List.mem_cons.mp hz with rfl | hz
          · exact le_of_lt hlt
          · exact le_trans (le_of_lt hlt) (hp.1 z hz)
        · rw [List.pairwise_cons]
          exact hp
      · rw [if_neg hlt]
        rw [List.pairwise_cons]
        constructor
        · intro z hz
          rcases mem_insertByFst x ys z hz with rfl | hz
          · exact le_of_not_lt hlt
          · exact hp.1 z hz
        · exact ih hp.2

theorem pairwise_pySortedByFst (l : List (Rat × String)) :
    List.Pairwise (fun a b => a.1 ≤ b.1) (pySortedByFst l) := by
  unfold pySortedByFst
  have main : ∀ (l acc : List (Rat × String)),
      List.Pairwise (fun a b => a.1 ≤ b.1) acc →
      List.Pairwise (fun a b => a.1 ≤ b.1)
        (l.foldl (fun acc x => insertByFst x acc) acc) := by
    intro l
    induction l with
    | nil => intro acc h; exact h
    | cons x xs ih =>
        intro acc h
        rw [List.foldl_cons]
        exact ih _ (pairwise_insertByFst x acc h)
  exact main l [] (by simp)

theorem selectLoop_fst_sublist (txs : List (String × Transaction)) (m : Nat) :
    ∀ (entries : List (Rat × String)) (cur : Nat),
      ((selectLoop txs m entries cur).map (fun e => e.1)).Sublist entries := by
  intro entries
  induction entries with
  | nil => intro cur; simp [selectLoop]
  | cons e rest ih =>
      intro cur
      unfold selectLoop
      cases List.lookup e.2 txs with
      | none =>
          exact List.Sublist.cons e (ih cur)
      | some tx =>
          dsimp only
          by_cases hfit : cur + txSize tx ≤ m
          · rw [if_pos hfit]
            rw [List.map_cons]
            exact List.Sublist.cons₂ e (ih (cur + txSize tx))
          · rw [if_neg hfit]
            simp

theorem selectLoop_size_bound (txs : List (String × Transaction)) (m : Nat) :
    ∀ (entries : List (Rat × String)) (cur : Nat), cur ≤ m →
      cur + ((selectLoop txs m entries cur).map (fun e => txSize e.2)).sum ≤ m := by
  intro entries
  induction entries with
  | nil => intro cur h; simpa [selectLoop] using h
  | cons e rest ih =>
      intro cur h
      unfold selectLoop
      cases List.lookup e.2 txs with
      | none => exact ih cur h
      | some tx =>
          dsimp only
          by_cases hfit : cur + txSize tx ≤ m
          · rw [if_pos hfit]
            have := ih (cur + txSize tx) hfit
            simp only [List.map_cons, List.sum_cons]
            omega
          · rw [if_neg hfit]
            simpa using h

end Mempool

/-- C7 amended: get_transactions_for_block walks the stable sort of the
heap array by negated fee rate: the selected entries are a subsequence of
that order, hence non-increasing in fee rate, and the packed sizes fit in
the block; ties keep the heap-array order (not the lower-txid order). -/
theorem C7_selection_order_and_packing (mp : Mempool) (max_block_size : Nat) :
    Mempool.get_transactions_for_block mp max_block_size =
      (Mempool.selectLoop mp.transactions max_block_size
        (Mempool.pySortedByFst mp.tx_by_fee) 0).map (fun e => e.2) ∧
    List.Pairwise (fun a b => a.1.1 ≤ b.1.1)
      (Mempool.selectLoop mp.transactions max_block_size
        (Mempool.pySortedByFst mp.tx_by_fee) 0) ∧
    ((Mempool.selectLoop mp.transactions max_block_size
        (Mempool.pySortedByFst mp.tx_by_fee) 0).map (fun e => txSize e.2)).sum ≤
      max_block_size := by
  refine ⟨rfl, ?_, ?_⟩
  · have hs := Mempool.selectLoop_fst_sublist mp.transactions max_block_size
      (Mempool.pySortedByFst mp.tx_by_fee) 0
    have hp := (Mempool.pairwise_pySortedByFst mp.tx_by_fee).sublist hs
    rw [List.pairwise_map] at hp
    exact hp
  · simpa using Mempool.selectLoop_size_bound mp.transactions max_block_size
      (Mempool.pySortedByFst mp.tx_by_fee) 0 (Nat.zero_le _)

end Xorcoin

namespace Xorcoin

set_option maxHeartbeats 400000000 in
/-- C7 counterexample: three equal-fee-rate, equal-size transactions
admitted in the order cc, bb, aa (descending txid).  The heap array ends
as [hash(aa), hash(cc), hash(bb)], the stable sort keeps that order, and
the block selection returns aa, cc, bb — although txid(bb) < txid(cc), so
the tie is not broken by lower txid. -/
theorem C7_counterexample :
    feeMempool.tx_by_fee.all (fun e => e.1 == -1) = true ∧
    Mempool.get_transactions_for_block feeMempool 100000 =
      [feeTx "aa", feeTx "cc", feeTx "bb"] ∧
    strLt (feeTx "bb").get_hash (feeTx "cc").get_hash = true := by
  refine ⟨by decide, by decide, by decide⟩

end Xorcoin
